import Mathlib

/-!
Verification of the SDP codec filter and connection lifecycle of `src/webrtc.ts`.

The central function of the source, `sdpFilterCodec(kind, codec, realSdp)`,
splits the SDP text on `'\n'`, runs two `reduce` passes over the lines, and
rebuilds the output string.  We embed it shallowly: lines are `List Char`,
the four regular expressions of the source are carried over as executable
matching functions with JavaScript `RegExp` semantics (leftmost match, greedy
digit runs, lazy `.*?`, `$` anchored at end of string, `\s` as the ECMAScript
whitespace class, `.` excluding line terminators), and the two `reduce`
passes become `List.foldl` over step functions that mirror the source line
by line.  The `startRecording` / `stopRecording` wiring of the default
export is modelled with explicit JavaScript `undefined` values.
-/

namespace Webrtc

/-- Decidable test that `pre` is an initial segment of `cs`; embeds
JavaScript `String.prototype.startsWith`. -/
def startsWithL (pre cs : List Char) : Bool :=
  decide (cs.take pre.length = pre)

/-- Embeds JavaScript `realSdp.split('\n')` at the character-list level:
splits at every `'\n'`, keeping empty segments (so `""` gives `[[]]` and a
trailing newline yields a trailing empty segment), exactly as in JS. -/
def splitNl : List Char → List (List Char)
  | [] => [[]]
  | c :: r =>
    match splitNl r with
    | [] => [[]]
    | l :: ls => if c = '\n' then [] :: l :: ls else (c :: l) :: ls

/-- Joins segments back with `'\n'`; the left inverse of `splitNl`. -/
def joinNl : List (List Char) → List Char
  | [] => []
  | [l] => l
  | l :: ls => l ++ '\n' :: joinNl ls

/-- Numeric value of a digit string; embeds the JavaScript unary `+` applied
to the digit captures of the source's regexes (always all-digit strings). -/
def digitsToNat (ds : List Char) : Nat :=
  ds.foldl (fun a c => 10 * a + (c.toNat - '0'.toNat)) 0

/-- Character for a single decimal digit value. -/
def digitChar (n : Nat) : Char := Char.ofNat ('0'.toNat + n)

/-- Fuel-driven decimal printing helper. -/
def natCharsAux : Nat → Nat → List Char
  | 0, _ => []
  | fuel + 1, n =>
    if n < 10 then [digitChar n] else natCharsAux fuel (n / 10) ++ [digitChar (n % 10)]

/-- Decimal digits of a natural number; embeds JavaScript `Number.toString()`
for the non-negative integers the filter handles. -/
def natChars (n : Nat) : List Char := natCharsAux (n + 1) n

/-- Embeds JavaScript `allowed.join(' ')`. -/
def joinSp : List Nat → List Char
  | [] => []
  | [n] => natChars n
  | n :: ns => natChars n ++ ' ' :: joinSp ns

/-- ECMAScript `\s` character class (WhiteSpace plus LineTerminator). -/
def jsWhitespace (c : Char) : Bool :=
  c = ' ' || c = '\t' || c = '\n' || c = '\x0b' || c = '\x0c' || c = '\r' ||
  c = '\u00a0' || c = '\u1680' || ('\u2000' ≤ c && c ≤ '\u200a') ||
  c = '\u2028' || c = '\u2029' || c = '\u202f' || c = '\u205f' ||
  c = '\u3000' || c = '\ufeff'

/-- ECMAScript `.` (without the `s` flag): any character except a line
terminator. -/
def jsDot (c : Char) : Bool :=
  !(c = '\n' || c = '\r' || c = '\u2028' || c = '\u2029')

/-- Membership helper for the source's `videoRegex`: decides whether a digit
run followed by the tail of a payload list remains, i.e. whether the string
is in the language `[0-9]*` · `( [0-9]+)*\s*`. -/
def payloadTail2 : List Char → Bool
  | [] => true
  | [c] => if c.isDigit then true else jsWhitespace c
  | c :: d :: r =>
    if c.isDigit then payloadTail2 (d :: r)
    else if c = ' ' && d.isDigit then payloadTail2 r
    else (c :: d :: r).all jsWhitespace

/-- Decides membership in the language of the source `videoRegex`'s tail
`( ([0-9]+))*\s*` anchored by `$` at the end of the line. -/
def payloadTail : List Char → Bool
  | [] => true
  | [c] => jsWhitespace c
  | c :: d :: r =>
    if c = ' ' && d.isDigit then payloadTail2 r
    else (c :: d :: r).all jsWhitespace

/-- Splits `cs` as `A ++ rest` where `A` is the shortest line-terminator-free
chunk (the lazy `.*?` of `videoRegex`) such that `rest` matches
`( ([0-9]+))*\s*$`; `none` when no such split exists. -/
def videoTail : List Char → Option (List Char × List Char)
  | [] => some ([], [])
  | c :: r =>
    if payloadTail (c :: r) then some ([], c :: r)
    else if jsDot c then (videoTail r).map (fun p => (c :: p.1, p.2))
    else none

/-- The literal `m=<kind> ` that interpolates `kind` into the source's
`videoRegex` and into the `line.startsWith` test of both passes. -/
def mHead (kind : List Char) : List Char := 'm' :: '=' :: (kind ++ [' '])

/-- Match of the source `videoRegex` `(m=<kind> .*?)( ([0-9]+))*\s*$` when the
match is required to begin exactly here; returns capture group 1. -/
def videoRegexMatchAt (kind cs : List Char) : Option (List Char) :=
  if startsWithL (mHead kind) cs then
    (videoTail (cs.drop (mHead kind).length)).map (fun p => mHead kind ++ p.1)
  else none

/-- Leftmost match of the source `videoRegex` inside a line: returns the text
before the match together with capture group 1 (the match itself always
extends to the end of the line because of the `$` anchor). -/
def videoRegexFind (kind : List Char) : List Char → Option (List Char × List Char)
  | [] => none
  | c :: r =>
    match videoRegexMatchAt kind (c :: r) with
    | some g => some ([], g)
    | none => (videoRegexFind kind r).map (fun p => (c :: p.1, p.2))

/-- Embeds `line.replace(videoRegex, '$1' + allowed.join(' '))`: the match
(which runs to the end of the line) is replaced by capture group 1 followed
directly by the space-joined allowed list, with no separating space, exactly
as the source concatenates `'$1'` and the join. -/
def videoRegexReplace (kind : List Char) (allowed : List Nat) (line : List Char) : List Char :=
  match videoRegexFind kind line with
  | some p => p.1 ++ p.2 ++ joinSp allowed
  | none => line

/-- Match of the source `codecRegex` `a=rtpmap:([0-9]+) <codec>` when the
match is required to begin exactly here; returns capture group 1 as a number.
The source passes `codec` through `escapeRegExp`, which makes it a literal
string in the pattern. -/
def codecRegexMatchAt (codec cs : List Char) : Option Nat :=
  if startsWithL ("a=rtpmap:".data) cs then
    let r := cs.drop ("a=rtpmap:".data).length
    let ds := r.takeWhile Char.isDigit
    if ds = [] then none
    else if startsWithL (' ' :: codec) (r.dropWhile Char.isDigit) then some (digitsToNat ds)
    else none
  else none

/-- Leftmost match of `codecRegex` inside a line (JavaScript
`line.match(codecRegex)`), returning capture group 1 as a number. -/
def codecRegexMatch (codec : List Char) : List Char → Option Nat
  | [] => none
  | c :: r =>
    match codecRegexMatchAt codec (c :: r) with
    | some pt => some pt
    | none => codecRegexMatch codec r

/-- Match of the source `rtxRegex` `a=fmtp:(\d+) apt=(\d+)\r$` when the match
is required to begin exactly here.  The `$` (no multiline flag) anchors at
the very end of the line, and the pattern demands a literal `'\r'` there.
Returns captures (group 1, group 2) as numbers. -/
def rtxRegexMatchAt (cs : List Char) : Option (Nat × Nat) :=
  if startsWithL ("a=fmtp:".data) cs then
    let r := cs.drop ("a=fmtp:".data).length
    let d1 := r.takeWhile Char.isDigit
    if d1 = [] then none
    else
      let r2 := r.dropWhile Char.isDigit
      if startsWithL (" apt=".data) r2 then
        let r3 := r2.drop (" apt=".data).length
        let d2 := r3.takeWhile Char.isDigit
        if d2 = [] then none
        else if r3.dropWhile Char.isDigit = ['\r'] then
          some (digitsToNat d1, digitsToNat d2)
        else none
      else none
  else none

/-- Leftmost match of `rtxRegex` inside a line. -/
def rtxRegexMatch : List Char → Option (Nat × Nat)
  | [] => none
  | c :: r =>
    match rtxRegexMatchAt (c :: r) with
    | some pr => some pr
    | none => rtxRegexMatch r

/-- One alternative of the source `skipRegex` `a=(fmtp|rtcp-fb|rtpmap):([0-9]+)`:
requires the literal `tag` here followed by at least one digit; returns the
digit capture (group 2) as a number. -/
def skipTagMatch (tag cs : List Char) : Option Nat :=
  if startsWithL tag cs then
    let ds := (cs.drop tag.length).takeWhile Char.isDigit
    if ds = [] then none else some (digitsToNat ds)
  else none

/-- Match of `skipRegex` when the match is required to begin exactly here. -/
def skipRegexMatchAt (cs : List Char) : Option Nat :=
  match skipTagMatch ("a=fmtp:".data) cs with
  | some pt => some pt
  | none =>
    match skipTagMatch ("a=rtcp-fb:".data) cs with
    | some pt => some pt
    | none => skipTagMatch ("a=rtpmap:".data) cs

/-- Leftmost match of `skipRegex` inside a line, returning capture group 2 as
a number (the source reads `line.match(skipRegex)?.[2]`). -/
def skipRegexMatch : List Char → Option Nat
  | [] => none
  | c :: r =>
    match skipRegexMatchAt (c :: r) with
    | some pt => some pt
    | none => skipRegexMatch r

/-- The `isKind` update performed at the top of both reduce passes:
`isKind = line.startsWith('m=<kind> ') || (!line.startsWith('m=') && isKind)`. -/
def updKindL (kind : List Char) (isKind : Bool) (line : List Char) : Bool :=
  startsWithL (mHead kind) line || (!startsWithL ['m', '='] line && isKind)

/-- Body of the source's first `reduce` (pass 1, collection) acting on the
collected number list `old`: `matchCodex` (the `codecRegex` match) appends
its capture unconditionally, then the `rtxRegex` capture is appended when
its `apt` reference is already in the list updated by the codec branch of
the same line.  Note that the section flag `isKind` plays no role here,
exactly as in the source, whose first reduce assigns `isKind` but never
reads it when collecting. -/
def collectOne (codec : List Char) (old : List Nat) (line : List Char) : List Nat :=
  let old1 := match codecRegexMatch codec line with
    | some pt => old ++ [pt]
    | none => old
  match rtxRegexMatch line with
  | some pr => if pr.2 ∈ old1 then old1 ++ [pr.1] else old1
  | none => old1

/-- One step of the source's first `reduce`: the mutable `isKind` flag is
threaded (and never consulted), and the number list is updated by
`collectOne`. -/
def collectStep (kind codec : List Char) (st : Bool × List Nat) (line : List Char) :
    Bool × List Nat :=
  (updKindL kind st.1 line, collectOne codec st.2 line)

/-- The `allowed` list of the source: pass 1 folded over all lines starting
from `isKind = false` and an empty list. -/
def allowedList (kind codec : List Char) (lines : List (List Char)) : List Nat :=
  (lines.foldl (collectStep kind codec) (false, [])).2

/-- One step of the source's second `reduce` (pass 2, rewrite), mirroring the
nested conditional of the source: inside the target section a line is kept
only when `skipRegex` matched with an allowed capture (`isIncluded`), in
which case a `videoRegex` match is rewritten, otherwise the line is copied;
every emitted line is terminated by a space and a newline, as in the
template `` `${old}${line} \n` ``. -/
def emitStep (kind : List Char) (allowed : List Nat) (st : Bool × List Char)
    (line : List Char) : Bool × List Char :=
  let isKind := updKindL kind st.1 line
  let isIncluded : Bool := match skipRegexMatch line with
    | some pt => decide (pt ∈ allowed)
    | none => false
  let isVideo := (videoRegexFind kind line).isSome
  (isKind,
    if isKind then
      if isIncluded then
        if isVideo then st.2 ++ videoRegexReplace kind allowed line ++ [' ', '\n']
        else st.2 ++ line ++ [' ', '\n']
      else st.2
    else st.2 ++ line ++ [' ', '\n'])

/-- The source `sdpFilterCodec` at the character-list level: split on `'\n'`
(empty input for an absent SDP), collect `allowed` with pass 1, rewrite with
pass 2. -/
def sdpFilterCodecL (kind codec : List Char) (realSdp : Option (List Char)) : List Char :=
  let lines := match realSdp with
    | some s => splitNl s
    | none => []
  let allowed := allowedList kind codec lines
  (lines.foldl (emitStep kind allowed) (false, [])).2

/-- The source `sdpFilterCodec` at the `String` level. -/
def sdpFilterCodec (kind codec : String) (realSdp : Option String) : String :=
  String.mk (sdpFilterCodecL kind.data codec.data (realSdp.map String.data))

/-- String-level view of `splitNl`. -/
def splitNlS (s : String) : List String := (splitNl s.data).map String.mk

/-- String-level view of `allowedList`. -/
def allowedListS (kind codec : String) (lines : List String) : List Nat :=
  allowedList kind.data codec.data (lines.map String.data)

/-- String-level view of `codecRegexMatch`. -/
def codecRegexMatchS (codec line : String) : Option Nat :=
  codecRegexMatch codec.data line.data

/-- String-level view of `rtxRegexMatch`. -/
def rtxRegexMatchS (line : String) : Option (Nat × Nat) :=
  rtxRegexMatch line.data


/-- JavaScript values relevant to the event wiring of the default export:
`addEventListener` returns `undefined`. -/
inductive JsVal where
  | undefined
  | listener
deriving DecidableEq

/-- Return value of `HTMLElement.addEventListener`: always `undefined`. -/
def addEventListenerRet : JsVal := JsVal.undefined

/-- Outcome of the setup line of the default export. -/
structure SetupResult where
  listenerAttached : Bool
  startRecordingCalledAtSetup : Bool

/-- Embeds the setup line of the default export (source line 150),
`start?.addEventListener('click', ...) ?? startRecording()`: optional
chaining yields `undefined` when `start` is absent, otherwise the return
value of `addEventListener` (which is `undefined`); the nullish coalescing
operator `??` then evaluates its right operand `startRecording()` exactly
when the left side is `undefined` or `null`. -/
def setupStartWiring {E : Type} (start : Option E) : SetupResult :=
  let lhs : JsVal := match start with
    | none => JsVal.undefined
    | some _ => addEventListenerRet
  ⟨start.isSome, decide (lhs = JsVal.undefined)⟩

/-- Teardown effects performed by `stopCamera` (source lines 103-111). -/
inductive TeardownAction where
  | detachSourceSink
  | stopTransceivers
  | stopSenderTracks
  | scheduleClose (delayMs : Nat)
deriving DecidableEq

/-- Model of `stopCamera` (source lines 103-111): detaches the local preview
when a source sink exists, stops every transceiver when the capability is
present, stops the sender tracks, schedules `pc.close()` after a 500 ms
grace delay, and returns the connection unchanged. -/
def stopCameraModel {PC : Type} (hasSource supportsTransceivers : Bool) (p : PC) :
    PC × List TeardownAction :=
  (p,
    (if hasSource then [TeardownAction.detachSourceSink] else []) ++
    (if supportsTransceivers then [TeardownAction.stopTransceivers] else []) ++
    [TeardownAction.stopSenderTracks, TeardownAction.scheduleClose 500])

/-- Embeds `stopRecording` (source lines 33-36):
`pc = pc ? stopCamera(pc, source) : pc; pc = null`.  Returns the final
connection reference paired with the list of teardown actions performed;
the `stopCamera` collaborator is abstracted as a parameter (instantiable by
`stopCameraModel`).  The function is total: no error can arise. -/
def stopRecording {PC : Type} (stopCamera : PC → PC × List TeardownAction)
    (pc : Option PC) : Option PC × List TeardownAction :=
  let afterCall : Option PC × List TeardownAction :=
    match pc with
    | some p => (some (stopCamera p).1, (stopCamera p).2)
    | none => (pc, [])
  (none, afterCall.2)

/-- Claim-side helper: the lines of the input that lie outside the target
kind media section, where section membership of a line is the value of the
source `isKind` flag at that line (parameter `b` is the flag before the
first of the given lines). -/
def outsideAux (kind : List Char) (b : Bool) : List (List Char) → List (List Char)
  | [] => []
  | l :: ls =>
    let b2 := updKindL kind b l
    if b2 then outsideAux kind b2 ls else l :: outsideAux kind b2 ls

/-- Lines of the input outside the target kind media section. -/
def outsideLines (kind : List Char) (lines : List (List Char)) : List (List Char) :=
  outsideAux kind false lines

/-- Proof-side recursive form of the numeric component of pass 1. -/
def collectNums (codec : List Char) (old : List Nat) : List (List Char) → List Nat
  | [] => old
  | line :: ls => collectNums codec (collectOne codec old line) ls

/-- Claim-side comparison for C9: pass 1 with only the codec branch (the
retransmission rule removed). -/
def codecOnlyNums (codec : List Char) (old : List Nat) : List (List Char) → List Nat
  | [] => old
  | line :: ls =>
    codecOnlyNums codec
      (match codecRegexMatch codec line with
        | some pt => old ++ [pt]
        | none => old) ls

/-- String-level view of `codecOnlyNums` started from the empty list. -/
def codecOnlyListS (codec : String) (lines : List String) : List Nat :=
  codecOnlyNums codec.data [] (lines.map String.data)

/-- Proof-side helper: the piece of output pass 2 emits for one line, given
the value `b` of the `isKind` flag before the line (the branch structure is
that of `emitStep`; a dropped line contributes `[]`). -/
def emitPiece (kind : List Char) (allowed : List Nat) (b : Bool) (line : List Char) : List Char :=
  let isKind := updKindL kind b line
  let isIncluded : Bool := match skipRegexMatch line with
    | some pt => decide (pt ∈ allowed)
    | none => false
  if isKind then
    if isIncluded then
      if (videoRegexFind kind line).isSome then
        videoRegexReplace kind allowed line ++ [' ', '\n']
      else line ++ [' ', '\n']
    else []
  else line ++ [' ', '\n']

/-- Proof-side recursive form of pass 2: emits the pieces of the output in
order instead of accumulating them in a fold state. -/
def emitRec (kind : List Char) (allowed : List Nat) (b : Bool) : List (List Char) → List Char
  | [] => []
  | line :: ls => emitPiece kind allowed b line ++ emitRec kind allowed (updKindL kind b line) ls

/-- Claim-side helper: the output pass 2 produces when every line is copied,
i.e. each line followed by a space and a newline. -/
def copyAll : List (List Char) → List Char
  | [] => []
  | line :: ls => line ++ ' ' :: '\n' :: copyAll ls

/-! Bridging lemmas between the source folds and their recursive forms. -/

/-- The collected numbers of pass 1 do not depend on the threaded flag. -/
theorem foldl_collect_eq (kind codec : List Char) :
    ∀ (ls : List (List Char)) (st : Bool × List Nat),
      (ls.foldl (collectStep kind codec) st).2 = collectNums codec st.2 ls := by
  intro ls
  induction ls with
  | nil => intro st; simp [collectNums]
  | cons l ls ih =>
    intro st
    simp only [List.foldl_cons]
    rw [ih]
    rfl

/-- Pass 1 as a recursion on the line list. -/
theorem allowedList_eq_collectNums (kind codec : List Char) (lines : List (List Char)) :
    allowedList kind codec lines = collectNums codec [] lines :=
  foldl_collect_eq kind codec lines (false, [])

/-- Pass 1 splits along an append of line lists. -/
theorem collectNums_append (codec : List Char) :
    ∀ (l1 l2 : List (List Char)) (A : List Nat),
      collectNums codec A (l1 ++ l2) = collectNums codec (collectNums codec A l1) l2 := by
  intro l1
  induction l1 with
  | nil => intro l2 A; simp [collectNums]
  | cons l ls ih =>
    intro l2 A
    simp only [List.cons_append, collectNums]
    exact ih l2 _

/-- Processing one line only appends to the collected list. -/
theorem collectOne_extend (codec : List Char) (A : List Nat) (l : List Char) :
    ∃ s, collectOne codec A l = A ++ s := by
  unfold collectOne
  rcases hc : codecRegexMatch codec l with _ | pt <;>
    rcases hr : rtxRegexMatch l with _ | pr
  · exact ⟨[], by simp⟩
  · by_cases h : pr.2 ∈ A
    · exact ⟨[pr.1], by simp [h]⟩
    · exact ⟨[], by simp [h]⟩
  · exact ⟨[pt], by simp⟩
  · by_cases h : pr.2 ∈ A ++ [pt]
    · exact ⟨[pt, pr.1], by simp [h]⟩
    · exact ⟨[pt], by simp [h]⟩

/-- Pass 1 only ever appends to the collected list. -/
theorem collectNums_extend (codec : List Char) :
    ∀ (ls : List (List Char)) (A : List Nat), ∃ t, collectNums codec A ls = A ++ t := by
  intro ls
  induction ls with
  | nil => intro A; exact ⟨[], by simp [collectNums]⟩
  | cons l ls ih =>
    intro A
    obtain ⟨u, hu⟩ := collectOne_extend codec A l
    obtain ⟨t, ht⟩ := ih (collectOne codec A l)
    rw [hu] at ht
    exact ⟨u ++ t, by simp [collectNums, hu, ht]⟩

/-- The first component of an emit step is the updated flag. -/
theorem emitStep_fst (kind : List Char) (allowed : List Nat) (st : Bool × List Char)
    (line : List Char) : (emitStep kind allowed st line).1 = updKindL kind st.1 line := rfl

/-- The second component of an emit step appends the per-line piece. -/
theorem emitStep_snd (kind : List Char) (allowed : List Nat) (st : Bool × List Char)
    (line : List Char) :
    (emitStep kind allowed st line).2 = st.2 ++ emitPiece kind allowed st.1 line := by
  simp only [emitStep, emitPiece]
  split_ifs <;> simp

/-- Pass 2 as a recursion emitting pieces in order. -/
theorem foldl_emit_eq (kind : List Char) (allowed : List Nat) :
    ∀ (ls : List (List Char)) (st : Bool × List Char),
      (ls.foldl (emitStep kind allowed) st).2 = st.2 ++ emitRec kind allowed st.1 ls := by
  intro ls
  induction ls with
  | nil => intro st; simp [emitRec]
  | cons l ls ih =>
    intro st
    simp only [List.foldl_cons, emitRec]
    rw [ih, emitStep_snd, emitStep_fst]
    simp

/-- Splitting on newlines never yields the empty list of segments. -/
theorem splitNl_ne_nil : ∀ cs : List Char, splitNl cs ≠ [] := by
  intro cs
  cases cs with
  | nil => simp [splitNl]
  | cons c r =>
    simp only [splitNl]
    rcases h : splitNl r with _ | ⟨l, ls⟩
    · simp
    · by_cases hc : c = '\n' <;> simp [hc]

/-- Segments produced by `splitNl` contain no newline. -/
theorem splitNl_nlfree : ∀ (cs : List Char), ∀ l ∈ splitNl cs, '\n' ∉ l := by
  intro cs
  induction cs with
  | nil =>
    intro l hl
    simp [splitNl] at hl
    simp [hl]
  | cons c r ih =>
    intro l hl
    simp only [splitNl] at hl
    rcases h : splitNl r with _ | ⟨x, xs⟩
    · exact absurd h (splitNl_ne_nil r)
    · rw [h] at hl
      by_cases hc : c = '\n'
      · simp [hc] at hl
        rcases hl with h1 | h1 | h1
        · simp [h1]
        · exact h1 ▸ ih x (h ▸ List.mem_cons_self x xs)
        · exact ih l (h ▸ List.mem_cons_of_mem x h1)
      · simp [hc] at hl
        rcases hl with h1 | h1
        · subst h1
          intro hmem
          rcases List.mem_cons.mp hmem with h3 | h4
          · exact hc h3.symm
          · exact ih x (h ▸ List.mem_cons_self x xs) h4
        · exact ih l (h ▸ List.mem_cons_of_mem x h1)

/-- Splitting a newline-free chunk followed by a newline peels one segment. -/
theorem splitNl_chunk (x r : List Char) (hx : '\n' ∉ x) :
    splitNl (x ++ '\n' :: r) = x :: splitNl r := by
  induction x with
  | nil =>
    simp only [List.nil_append, splitNl]
    rcases h : splitNl r with _ | ⟨l, ls⟩
    · exact absurd h (splitNl_ne_nil r)
    · simp
  | cons c x ih =>
    have hc : c ≠ '\n' := fun e => hx (e ▸ List.mem_cons_self c x)
    have hx2 : '\n' ∉ x := fun m => hx (List.mem_cons_of_mem c m)
    show splitNl (c :: (x ++ '\n' :: r)) = (c :: x) :: splitNl r
    rw [splitNl, ih hx2]
    simp [hc]

/-- Joining the segments of `splitNl` restores the original characters. -/
theorem joinNl_splitNl : ∀ cs : List Char, joinNl (splitNl cs) = cs := by
  intro cs
  induction cs with
  | nil => rfl
  | cons c r ih =>
    simp only [splitNl]
    rcases h : splitNl r with _ | ⟨l, ls⟩
    · exact absurd h (splitNl_ne_nil r)
    · rw [h] at ih
      by_cases hc : c = '\n'
      · subst hc
        simp [joinNl, ih]
      · simp only [if_neg hc]
        cases ls with
        | nil =>
          simp only [joinNl] at ih ⊢
          simp [ih]
        | cons l2 ls2 =>
          simp only [joinNl] at ih ⊢
          simp [← ih]

/-- A successful `rtxRegex` match forces the line to end with a carriage
return: the pattern is anchored by `\r$`. -/
theorem rtxRegexMatchAt_ends_cr (cs : List Char) (pr : Nat × Nat)
    (h : rtxRegexMatchAt cs = some pr) : cs.getLast? = some '\r' := by
  simp [rtxRegexMatchAt] at h
  obtain ⟨-, -, -, -, h4, -⟩ := h
  have hsuf : ['\r'] <:+ cs := by
    rw [← h4]
    exact (List.dropWhile_suffix _).trans ((List.drop_suffix _ _).trans
      ((List.dropWhile_suffix _).trans (List.drop_suffix _ _)))
  obtain ⟨w, hw⟩ := hsuf
  rw [← hw]
  exact List.getLast?_concat w

/-- A line matched anywhere by `rtxRegex` ends with a carriage return. -/
theorem rtxRegexMatch_ends_cr : ∀ (cs : List Char) (pr : Nat × Nat),
    rtxRegexMatch cs = some pr → cs.getLast? = some '\r' := by
  intro cs
  induction cs with
  | nil => intro pr h; simp [rtxRegexMatch] at h
  | cons c r ih =>
    intro pr h
    simp only [rtxRegexMatch] at h
    rcases ha : rtxRegexMatchAt (c :: r) with _ | pr2
    · rw [ha] at h
      cases r with
      | nil => simp [rtxRegexMatch] at h
      | cons b l =>
        rw [List.getLast?_cons_cons]
        exact ih pr h
    · exact rtxRegexMatchAt_ends_cr (c :: r) pr2 ha

/-- Contrapositive form: a line that does not end with `'\r'` never matches
`rtxRegex`. -/
theorem rtxRegexMatch_none_of_no_cr (cs : List Char) (h : cs.getLast? ≠ some '\r') :
    rtxRegexMatch cs = none := by
  rcases hm : rtxRegexMatch cs with _ | pr
  · rfl
  · exact absurd (rtxRegexMatch_ends_cr cs pr hm) h

/-- When no line matches `rtxRegex`, pass 1 degenerates to the codec-only
collection. -/
theorem collectNums_eq_codecOnly (codec : List Char) :
    ∀ (ls : List (List Char)) (A : List Nat),
      (∀ l ∈ ls, rtxRegexMatch l = none) →
      collectNums codec A ls = codecOnlyNums codec A ls := by
  intro ls
  induction ls with
  | nil => intro A h; rfl
  | cons l ls ih =>
    intro A h
    have hl : rtxRegexMatch l = none := h l (List.mem_cons_self l ls)
    have hrest : ∀ x ∈ ls, rtxRegexMatch x = none :=
      fun x hx => h x (List.mem_cons_of_mem l hx)
    simp only [collectNums, codecOnlyNums, collectOne, hl]
    exact ih _ hrest

/-- Characterization of `startsWithL`. -/
theorem startsWithL_eq (pre cs : List Char) :
    startsWithL pre cs = true ↔ cs.take pre.length = pre := by
  simp [startsWithL]

/-- The split returned by `videoTail` reassembles the input. -/
theorem videoTail_append : ∀ (cs A rest : List Char),
    videoTail cs = some (A, rest) → cs = A ++ rest := by
  intro cs
  induction cs with
  | nil =>
    intro A rest h
    simp [videoTail] at h
    simp [h.1, h.2]
  | cons c r ih =>
    intro A rest h
    simp only [videoTail] at h
    by_cases hp : payloadTail (c :: r)
    · rw [if_pos hp] at h
      cases h
      simp
    · rw [if_neg hp] at h
      by_cases hd : jsDot c
      · rw [if_pos hd] at h
        rcases hv : videoTail r with _ | p
        · rw [hv] at h; simp at h
        · rw [hv] at h
          have h2 : (c :: p.1, p.2) = (A, rest) := Option.some.inj h
          cases h2
          simp [ih p.1 p.2 (by rw [hv])]
      · rw [if_neg hd] at h; cases h

/-- Decomposition of an anchored `videoRegex` match: the line here is the
capture (the head literal plus the lazy chunk) followed by the payload
tail. -/
theorem videoRegexMatchAt_decomp (kind cs g : List Char)
    (h : videoRegexMatchAt kind cs = some g) :
    ∃ A rest, g = mHead kind ++ A ∧ cs = mHead kind ++ (A ++ rest) := by
  unfold videoRegexMatchAt at h
  by_cases hs : startsWithL (mHead kind) cs
  · rw [if_pos hs] at h
    rcases hv : videoTail (cs.drop (mHead kind).length) with _ | p
    · rw [hv] at h; cases h
    · rw [hv] at h
      have h2 : mHead kind ++ p.1 = g := Option.some.inj h
      subst h2
      refine ⟨p.1, p.2, rfl, ?_⟩
      have ht : cs.take (mHead kind).length = mHead kind := (startsWithL_eq _ _).mp hs
      have hd : cs.drop (mHead kind).length = p.1 ++ p.2 :=
        videoTail_append _ p.1 p.2 (by rw [hv])
      calc cs = cs.take (mHead kind).length ++ cs.drop (mHead kind).length :=
            (List.take_append_drop _ _).symm
        _ = mHead kind ++ (p.1 ++ p.2) := by rw [ht, hd]
  · rw [if_neg hs] at h; cases h

/-- Decomposition of the leftmost `videoRegex` match inside a line. -/
theorem videoRegexFind_decomp : ∀ (cs : List Char) (kind bef g : List Char),
    videoRegexFind kind cs = some (bef, g) →
    ∃ A rest, g = mHead kind ++ A ∧ cs = bef ++ (mHead kind ++ (A ++ rest)) := by
  intro cs
  induction cs with
  | nil => intro kind bef g h; simp [videoRegexFind] at h
  | cons c r ih =>
    intro kind bef g h
    simp only [videoRegexFind] at h
    rcases ha : videoRegexMatchAt kind (c :: r) with _ | g0
    · rw [ha] at h
      rcases hf : videoRegexFind kind r with _ | p
      · rw [hf] at h; simp at h
      · rw [hf] at h
        obtain ⟨h3, h4⟩ := Prod.mk.inj (Option.some.inj h)
        subst h3
        subst h4
        obtain ⟨A, rest, hg, hr⟩ := ih kind p.1 p.2 (by rw [hf])
        exact ⟨A, rest, hg, by simp [hr]⟩
    · rw [ha] at h
      obtain ⟨h3, h4⟩ := Prod.mk.inj (Option.some.inj h)
      subst h3
      subst h4
      obtain ⟨A, rest, hg, hcs⟩ := videoRegexMatchAt_decomp kind (c :: r) g0 ha
      exact ⟨A, rest, hg, by simpa using hcs⟩

/-- Every character of `natCharsAux` is a decimal digit character. -/
theorem natCharsAux_mem : ∀ (fuel n : Nat) (c : Char), c ∈ natCharsAux fuel n →
    ∃ d, d < 10 ∧ c = digitChar d := by
  intro fuel
  induction fuel with
  | zero => intro n c hc; simp [natCharsAux] at hc
  | succ fuel ih =>
    intro n c hc
    simp only [natCharsAux] at hc
    by_cases hn : n < 10
    · rw [if_pos hn] at hc
      simp at hc
      exact ⟨n, hn, hc⟩
    · rw [if_neg hn] at hc
      rcases List.mem_append.mp hc with h1 | h2
      · exact ih _ c h1
      · simp at h2
        exact ⟨n % 10, Nat.mod_lt n (by omega), h2⟩

/-- Every character of a space-join of numbers is a space or a digit. -/
theorem joinSp_mem : ∀ (A : List Nat) (c : Char), c ∈ joinSp A →
    c = ' ' ∨ ∃ d, d < 10 ∧ c = digitChar d := by
  intro A
  induction A with
  | nil => intro c hc; simp [joinSp] at hc
  | cons n ns ih =>
    intro c hc
    cases ns with
    | nil =>
      simp only [joinSp, natChars] at hc
      exact Or.inr (natCharsAux_mem _ _ _ hc)
    | cons m ms =>
      simp only [joinSp, natChars] at hc
      rcases List.mem_append.mp hc with h1 | h2
      · exact Or.inr (natCharsAux_mem _ _ _ h1)
      · rcases List.mem_cons.mp h2 with h3 | h4
        · exact Or.inl h3
        · exact ih c h4

/-- A digit character is never a newline. -/
theorem digitChar_ne_nl (d : Nat) (h : d < 10) : digitChar d ≠ '\n' := by
  interval_cases d <;> decide

/-- The rewrite of a newline-free line by a newline-free kind stays
newline-free. -/
theorem videoRegexReplace_nlfree (kind : List Char) (allowed : List Nat) (line : List Char)
    (hk : '\n' ∉ kind) (hl : '\n' ∉ line) :
    '\n' ∉ videoRegexReplace kind allowed line := by
  intro hmem
  unfold videoRegexReplace at hmem
  rcases hf : videoRegexFind kind line with _ | p
  · rw [hf] at hmem; exact hl hmem
  · rw [hf] at hmem
    obtain ⟨A, rest, hg, hline⟩ := videoRegexFind_decomp line kind p.1 p.2 (by rw [hf])
    rcases List.mem_append.mp hmem with h1 | h2
    · rcases List.mem_append.mp h1 with h3 | h4
      · exact hl (by rw [hline]; simp [h3])
      · rw [hg] at h4
        rcases List.mem_append.mp h4 with h5 | h6
        · exact hk (by simpa [mHead] using h5)
        · exact hl (by rw [hline]; simp [h6])
    · rcases joinSp_mem allowed _ h2 with h3 | ⟨d, hd, he⟩
      · exact absurd h3 (by decide)
      · exact digitChar_ne_nl d hd he.symm

/-- Sublist helper: a piece `y ++ " \n"` in front of further output only
adds a segment. -/
theorem sublist_splitNl_piece (y E : List Char) (M : List (List Char))
    (hy : '\n' ∉ y ++ [' ']) (hM : List.Sublist M (splitNl E)) :
    List.Sublist M (splitNl (y ++ [' ', '\n'] ++ E)) := by
  have he : y ++ [' ', '\n'] ++ E = (y ++ [' ']) ++ '\n' :: E := by simp
  rw [he, splitNl_chunk _ _ hy]
  exact hM.trans (List.sublist_cons_self _ _)

/-- Sublist helper: a copied line heads the corresponding segment. -/
theorem sublist_splitNl_piece_cons (y E : List Char) (M : List (List Char))
    (hy : '\n' ∉ y ++ [' ']) (hM : List.Sublist M (splitNl E)) :
    List.Sublist ((y ++ [' ']) :: M) (splitNl (y ++ [' ', '\n'] ++ E)) := by
  have he : y ++ [' ', '\n'] ++ E = (y ++ [' ']) ++ '\n' :: E := by simp
  rw [he, splitNl_chunk _ _ hy]
  exact hM.cons₂ _

/-- Pass 2 emits every line outside the target section, in order, with one
trailing space appended: the outside lines (each with a space appended) form
a sublist of the newline-split segments of the emitted output. -/
theorem emitRec_outside_sublist (kind : List Char) (allowed : List Nat)
    (hk : '\n' ∉ kind) :
    ∀ (ls : List (List Char)) (b : Bool), (∀ l ∈ ls, '\n' ∉ l) →
    List.Sublist ((outsideAux kind b ls).map (fun l => l ++ [' ']))
      (splitNl (emitRec kind allowed b ls)) := by
  intro ls
  induction ls with
  | nil =>
    intro b h
    simp only [outsideAux, emitRec, splitNl, List.map_nil]
    exact List.nil_sublist _
  | cons l ls ih =>
    intro b h
    have hl : '\n' ∉ l := h l (List.mem_cons_self l ls)
    have hlsp : '\n' ∉ l ++ [' '] := by
      intro hm
      rcases List.mem_append.mp hm with h1 | h1
      · exact hl h1
      · exact absurd h1 (by decide)
    have hrest : ∀ x ∈ ls, '\n' ∉ x := fun x hx => h x (List.mem_cons_of_mem l hx)
    simp only [outsideAux, emitRec, emitPiece]
    by_cases hb : updKindL kind b l = true
    · simp only [hb, if_true]
      rcases hskip : skipRegexMatch l with _ | pt
      · simp only [hskip]
        simpa using ih true hrest
      · by_cases hm : pt ∈ allowed
        · by_cases hv : (videoRegexFind kind l).isSome = true
          · simp only [hskip, decide_eq_true hm, hv, if_true]
            have hynl : '\n' ∉ videoRegexReplace kind allowed l ++ [' '] := by
              intro hmem
              rcases List.mem_append.mp hmem with h1 | h1
              · exact videoRegexReplace_nlfree kind allowed l hk hl h1
              · exact absurd h1 (by decide)
            exact sublist_splitNl_piece _ _ _ hynl
              ((ih true hrest).trans (List.Sublist.refl _))
          · have hv2 : (videoRegexFind kind l).isSome = false := by simpa using hv
            simp only [hskip, decide_eq_true hm, hv2, if_true, Bool.false_eq_true, if_false]
            exact sublist_splitNl_piece _ _ _ hlsp
              ((ih true hrest).trans (List.Sublist.refl _))
        · simp only [hskip, decide_eq_false hm, if_false]
          simpa using ih true hrest
    · have hb2 : updKindL kind b l = false := by simpa using hb
      simp only [hb2, Bool.false_eq_true, if_false]
      exact sublist_splitNl_piece_cons _ _ _ hlsp (ih false hrest)

/-- When no line starts the target media header, the flag stays false and
pass 2 copies every line (with the space-newline terminator). -/
theorem emitRec_copyAll (kind : List Char) (allowed : List Nat) :
    ∀ (ls : List (List Char)),
      (∀ l ∈ ls, startsWithL (mHead kind) l = false) →
      emitRec kind allowed false ls = copyAll ls := by
  intro ls
  induction ls with
  | nil => intro h; rfl
  | cons l ls ih =>
    intro h
    have hl : startsWithL (mHead kind) l = false := h l (List.mem_cons_self l ls)
    have hrest : ∀ x ∈ ls, startsWithL (mHead kind) x = false :=
      fun x hx => h x (List.mem_cons_of_mem l hx)
    have hb : updKindL kind false l = false := by simp [updKindL, hl]
    simp only [emitRec, emitPiece, hb, Bool.false_eq_true, if_false, copyAll]
    rw [ih hrest]
    simp

/-- Copying every line adds one character per line plus a trailing
terminator relative to the newline-join. -/
theorem copyAll_length : ∀ (ls : List (List Char)), ls ≠ [] →
    (copyAll ls).length = (joinNl ls).length + ls.length + 1 := by
  intro ls
  induction ls with
  | nil => intro h; exact absurd rfl h
  | cons l ls ih =>
    intro h
    cases ls with
    | nil => simp [copyAll, joinNl]
    | cons m ms =>
      have ihx := ih (by simp)
      simp only [copyAll, joinNl] at ihx ⊢
      simp only [List.length_append, List.length_cons] at ihx ⊢
      omega

/-- The characters of the filter's output are the pass 2 emission over the
newline-split lines, starting outside any section. -/
theorem sdpFilterCodec_data (kind codec : String) (s : String) :
    (sdpFilterCodec kind codec (some s)).data =
      emitRec kind.data (allowedList kind.data codec.data (splitNl s.data)) false
        (splitNl s.data) := by
  show sdpFilterCodecL kind.data codec.data (some s.data) = _
  simp only [sdpFilterCodecL]
  rw [foldl_emit_eq]
  simp

/-- Pass 1 at the string level is the recursive collection. -/
theorem allowedListS_eq (kind codec : String) (lines : List String) :
    allowedListS kind codec lines = collectNums codec.data [] (lines.map String.data) :=
  allowedList_eq_collectNums _ _ _

/-! Claim theorems. -/

/-- C1: the claim states that for every input SDP the output contains the
target-kind media header rewritten with the allowed payload list (even when
that list is empty).  The code contradicts this: evaluated on a well-formed
two-line video SDP, the filter drops the `m=video` header entirely — the
rewrite branch sits under the `isIncluded` test, which no real `m=` line
passes — so the output consists of the kept rtpmap line alone and no output
segment starts with `m=video`. -/
theorem sdpFilter_drops_media_header :
    sdpFilterCodec "video" "H264/90000"
        (some "m=video 9 UDP/TLS/RTP/SAVPF 96 97\r\na=rtpmap:96 H264/90000\r") =
      "a=rtpmap:96 H264/90000\r \n" ∧
    ∀ l ∈ splitNlS (sdpFilterCodec "video" "H264/90000"
        (some "m=video 9 UDP/TLS/RTP/SAVPF 96 97\r\na=rtpmap:96 H264/90000\r")),
      startsWithL ("m=video".data) l.data = false :=
  ⟨by decide, by decide⟩

/-- C2: the claim states that inside the target section every line other
than the header and the non-allowed mapping lines is copied unchanged.  The
code contradicts this: on a video section containing the connection line
`c=IN IP4 0.0.0.0`, that line is dropped (inside the section only mapping
lines whose payload type is allowed survive), so no output segment starts
with `c=`. -/
theorem sdpFilter_drops_nonmapping_section_lines :
    sdpFilterCodec "video" "H264/90000"
        (some "m=video 9 UDP/TLS/RTP/SAVPF 96\r\nc=IN IP4 0.0.0.0\r\na=rtpmap:96 H264/90000\r") =
      "a=rtpmap:96 H264/90000\r \n" ∧
    ∀ l ∈ splitNlS (sdpFilterCodec "video" "H264/90000"
        (some "m=video 9 UDP/TLS/RTP/SAVPF 96\r\nc=IN IP4 0.0.0.0\r\na=rtpmap:96 H264/90000\r")),
      startsWithL ("c=".data) l.data = false :=
  ⟨by decide, by decide⟩

/-- C3 (counterexample): the claim states that lines outside the target
section are byte-identical in the output.  On the single-line SDP `v=0`
(outside any media section) the first output segment is `v=0 ` — the line
with a trailing space appended — which differs from the input line. -/
theorem sdpFilter_outside_line_gains_space :
    (splitNlS (sdpFilterCodec "video" "H264/90000" (some "v=0"))).head? = some "v=0 " ∧
    ("v=0 " : String) ≠ "v=0" :=
  ⟨by decide, by decide⟩

/-- C3 (amended): every line outside the target-kind media section reappears
in the filter's output, in input order, with exactly one trailing space
appended (the space the emission template adds before each newline); the
line content is otherwise unmodified. -/
theorem sdpFilter_outside_lines_kept_with_space (kind codec : String) (s : String)
    (hk : '\n' ∉ kind.data) :
    List.Sublist ((outsideLines kind.data (splitNl s.data)).map (fun l => l ++ [' ']))
      (splitNl (sdpFilterCodec kind codec (some s)).data) := by
  rw [sdpFilterCodec_data]
  exact emitRec_outside_sublist kind.data _ hk (splitNl s.data) false (splitNl_nlfree s.data)

/-- C3 (witness): the amended statement applied to a concrete document with
a video section, an audio line and a session line. -/
theorem sdpFilter_outside_lines_kept_with_space_w :
    '\n' ∉ ("video" : String).data ∧
    List.Sublist
      ((outsideLines ("video" : String).data
          (splitNl ("v=0\nm=video 9 UDP 96\na=rtpmap:96 H264/90000\nm=audio 9 UDP 0\na=rtpmap:0 PCMU/8000" : String).data)).map
        (fun l => l ++ [' ']))
      (splitNl (sdpFilterCodec "video" "H264/90000"
          (some "v=0\nm=video 9 UDP 96\na=rtpmap:96 H264/90000\nm=audio 9 UDP 0\na=rtpmap:0 PCMU/8000")).data) :=
  ⟨by decide, sdpFilter_outside_lines_kept_with_space "video" "H264/90000" _ (by decide)⟩

/-- C4: the claim states that pass 1 collects only from lines inside the
target media section, so an `a=rtpmap` line naming the codec inside the
audio section contributes nothing when the kind is `video`.  The code
contradicts this: its first reduce assigns the `isKind` flag but never
consults it, so on an SDP whose only `H264/90000` rtpmap line sits in the
audio section the collected list is `[96]` rather than the empty list the
claim requires. -/
theorem sdpFilter_collects_from_other_sections :
    allowedListS "video" "H264/90000"
      (splitNlS "m=audio 9 UDP/TLS/RTP/SAVPF 96\r\na=rtpmap:96 H264/90000\r") = [96] := by
  decide

/-- C5: a retransmission payload type is appended exactly when its `apt`
reference is already collected at the moment its line is scanned (the first
conjunct), and a retransmission line whose reference has not yet been
collected contributes nothing at all — in particular a base codec discovered
later never retroactively qualifies it (the second conjunct). -/
theorem sdpFilter_rtx_dependency (kind codec : String) (pre post : List String)
    (line : String) (pt ref : Nat)
    (h1 : rtxRegexMatchS line = some (pt, ref))
    (h2 : codecRegexMatchS codec line = none) :
    (pt ∈ allowedListS kind codec (pre ++ [line]) ↔
      ref ∈ allowedListS kind codec pre ∨ pt ∈ allowedListS kind codec pre) ∧
    (ref ∉ allowedListS kind codec pre →
      allowedListS kind codec (pre ++ line :: post) = allowedListS kind codec (pre ++ post)) := by
  unfold rtxRegexMatchS at h1
  unfold codecRegexMatchS at h2
  have hone : ∀ A : List Nat, collectOne codec.data A line.data =
      if ref ∈ A then A ++ [pt] else A := by
    intro A
    simp [collectOne, h1, h2]
  constructor
  · rw [allowedListS_eq, allowedListS_eq, List.map_append, collectNums_append]
    simp only [List.map_cons, List.map_nil, collectNums, hone]
    by_cases href : ref ∈ collectNums codec.data [] (pre.map String.data)
    · simp [href]
    · simp [href]
  · intro href
    rw [allowedListS_eq] at href ⊢
    rw [allowedListS_eq, List.map_append, List.map_append, List.map_cons,
      collectNums_append, collectNums_append]
    simp only [collectNums, hone]
    rw [if_neg href]

/-- C5 (witness): a base rtpmap line followed by its retransmission fmtp
line; the reference `96` is already collected, so `97` joins the list. -/
theorem sdpFilter_rtx_dependency_w :
    rtxRegexMatchS "a=fmtp:97 apt=96\r" = some (97, 96) ∧
    codecRegexMatchS "H264/90000" "a=fmtp:97 apt=96\r" = none ∧
    ((97 ∈ allowedListS "video" "H264/90000"
          (["a=rtpmap:96 H264/90000\r"] ++ ["a=fmtp:97 apt=96\r"]) ↔
        96 ∈ allowedListS "video" "H264/90000" ["a=rtpmap:96 H264/90000\r"] ∨
        97 ∈ allowedListS "video" "H264/90000" ["a=rtpmap:96 H264/90000\r"]) ∧
      (96 ∉ allowedListS "video" "H264/90000" ["a=rtpmap:96 H264/90000\r"] →
        allowedListS "video" "H264/90000"
            (["a=rtpmap:96 H264/90000\r"] ++ "a=fmtp:97 apt=96\r" :: []) =
          allowedListS "video" "H264/90000" (["a=rtpmap:96 H264/90000\r"] ++ []))) :=
  ⟨by decide, by decide,
    sdpFilter_rtx_dependency "video" "H264/90000" ["a=rtpmap:96 H264/90000\r"] []
      "a=fmtp:97 apt=96\r" 97 96 (by decide) (by decide)⟩

/-- C6 (counterexample): the claim states that each payload type appears at
most once in AllowedSet (a codec match is appended only if not already
present).  The code appends codec matches unconditionally: on an SDP that
repeats the same rtpmap line, the collected list is `[96, 96]`, which has a
duplicate. -/
theorem sdpFilter_allowed_duplicates :
    allowedListS "video" "H264/90000"
        (splitNlS "a=rtpmap:96 H264/90000\na=rtpmap:96 H264/90000") = [96, 96] ∧
    ¬ (allowedListS "video" "H264/90000"
        (splitNlS "a=rtpmap:96 H264/90000\na=rtpmap:96 H264/90000")).Nodup :=
  ⟨by decide, by decide⟩

/-- C6 (amended): AllowedSet is built append-only in first-match scan order
and is never sorted or reordered — processing further lines only extends the
sequence at its end — but a codec-mapping match is appended unconditionally,
so a payload type can occur more than once (second conjunct). -/
theorem sdpFilter_allowed_append_only :
    (∀ (kind codec : String) (l1 l2 : List String),
      ∃ t, allowedListS kind codec (l1 ++ l2) = allowedListS kind codec l1 ++ t) ∧
    allowedListS "video" "H264/90000"
        (splitNlS "a=rtpmap:96 H264/90000\na=rtpmap:96 H264/90000") = [96, 96] := by
  constructor
  · intro kind codec l1 l2
    rw [allowedListS_eq, allowedListS_eq, List.map_append, collectNums_append]
    exact collectNums_extend codec.data _ _
  · decide

/-- C7 (counterexample): the claim states that filtering an already-filtered
document yields an identical document.  Filtering `v=0` yields `v=0 \n`,
and filtering that output yields `v=0  \n \n`: whitespace accumulates and
the two outputs differ. -/
theorem sdpFilter_not_idempotent :
    sdpFilterCodec "video" "H264/90000"
        (some (sdpFilterCodec "video" "H264/90000" (some "v=0"))) ≠
      sdpFilterCodec "video" "H264/90000" (some "v=0") := by
  decide

/-- C7 (amended): the filter is not idempotent.  On any document in which no
line starts with the target media header literal `m=<kind> ` — as holds for
the filtered outputs of ordinary documents, such as `filter "v=0"` in the
witness — a further application copies every line, appending one more space
per line and a trailing blank segment, so the result is strictly longer and
differs from its input. -/
theorem sdpFilter_refilter_changes (kind codec : String) (s : String)
    (h : ∀ l ∈ splitNl s.data, startsWithL (mHead kind.data) l = false) :
    sdpFilterCodec kind codec (some s) ≠ s := by
  intro he
  have hdata : (sdpFilterCodec kind codec (some s)).data = s.data := by rw [he]
  rw [sdpFilterCodec_data, emitRec_copyAll _ _ _ h] at hdata
  have hlen := congrArg List.length hdata
  rw [copyAll_length _ (splitNl_ne_nil _), joinNl_splitNl] at hlen
  omega

/-- C7 (witness): re-filtering the filtered output of `v=0` changes it. -/
theorem sdpFilter_refilter_changes_w :
    (∀ l ∈ splitNl (sdpFilterCodec "video" "H264/90000" (some "v=0")).data,
      startsWithL (mHead ("video" : String).data) l = false) ∧
    sdpFilterCodec "video" "H264/90000"
        (some (sdpFilterCodec "video" "H264/90000" (some "v=0"))) ≠
      sdpFilterCodec "video" "H264/90000" (some "v=0") :=
  ⟨by decide, sdpFilter_refilter_changes "video" "H264/90000" _ (by decide)⟩

/-- C8: when the setup line of the default export runs with a start trigger
element supplied, the click listener is attached and yet `startRecording()`
is still invoked immediately, because `addEventListener` returns `undefined`
and the nullish-coalescing right operand therefore executes. -/
theorem setup_calls_startRecording_immediately {E : Type} (e : E) :
    (setupStartWiring (some e)).startRecordingCalledAtSetup = true ∧
    (setupStartWiring (some e)).listenerAttached = true :=
  ⟨rfl, rfl⟩

/-- C9: on an SDP none of whose lines ends with a carriage return, the
retransmission rule never fires — `rtxRegex` demands a literal `\r` at the
end of the line — so pass 1 collects exactly the direct codec-name matches. -/
theorem sdpFilter_rtx_requires_cr (kind codec : String) (s : String)
    (h : ∀ l ∈ splitNlS s, l.data.getLast? ≠ some '\r') :
    allowedListS kind codec (splitNlS s) = codecOnlyListS codec (splitNlS s) := by
  rw [allowedListS_eq]
  unfold codecOnlyListS
  apply collectNums_eq_codecOnly
  intro l hl
  rw [List.mem_map] at hl
  obtain ⟨x, hx, hxl⟩ := hl
  subst hxl
  exact rtxRegexMatch_none_of_no_cr x.data (h x hx)

/-- C9 (witness): an LF-only document whose fmtp line would qualify as a
retransmission of 96 if it carried a trailing CR; without the CR the rule
never fires and only the codec match 96 is collected. -/
theorem sdpFilter_rtx_requires_cr_w :
    (∀ l ∈ splitNlS "a=rtpmap:96 H264/90000\na=fmtp:97 apt=96", l.data.getLast? ≠ some '\r') ∧
    allowedListS "video" "H264/90000" (splitNlS "a=rtpmap:96 H264/90000\na=fmtp:97 apt=96") =
      codecOnlyListS "H264/90000" (splitNlS "a=rtpmap:96 H264/90000\na=fmtp:97 apt=96") :=
  ⟨by decide, sdpFilter_rtx_requires_cr "video" "H264/90000" _ (by decide)⟩

/-- C10: calling `stopRecording` when the connection reference is already
null returns without error (the model is a total function), performs no
teardown action, and leaves the reference null. -/
theorem stopRecording_idle_noop {PC : Type} (stopCamera : PC → PC × List TeardownAction) :
    stopRecording stopCamera none = (none, []) := rfl

end Webrtc
